import Mathlib

/-!
Verification of the cobase persistent object store (src/src/Persisted.ts and
src/src/Index.ts) against its natural-language specification.

The development shallow-embeds the parts of the source the claims are about:

* JavaScript `Map` objects are embedded as association lists (`aget`, `aset`,
  `adel`): `Map.set` replaces the value in place when the key is present
  (keeping the entry's position in iteration order) and appends otherwise,
  `Map.delete` removes the entry, and iteration is in insertion order.
* JavaScript ids (numbers, strings, null, undefined) are embedded as `JSId`,
  with the numeric coercion of `id > 0` modelled by `jsStringToNumber`.
* The per-class write batcher of `Persisted.ts` (`dbPut` and its commit
  closure) is embedded as a state machine `BState`/`stepB`; fields `written`,
  `committed`, `flushed`, `resolved`, `rejected`, `failures` are ghost
  history used only to state properties.
* The indexer's `indexEntry` generator (Index.ts) is embedded as the pure
  function `indexEntryOps` over the already-serialized output of `indexBy`
  (JSON serialization is performed by the external JSON codec; an entry value
  of `""` stands for the serialized form of `undefined`, exactly as in the
  source's `entry.value === undefined ? '' : JSON.stringify(entry.value)`).
-/

/-- Association-list lookup, the embedding of JavaScript `Map.get`. -/
def aget {α β : Type} [DecidableEq α] : List (α × β) → α → Option β
  | [], _ => none
  | p :: rest, k => if p.1 = k then some p.2 else aget rest k

/-- Association-list update, the embedding of JavaScript `Map.set`: when the
key is present the value is replaced in place (the entry keeps its position in
iteration order), otherwise the pair is appended at the end. -/
def aset {α β : Type} [DecidableEq α] : List (α × β) → α → β → List (α × β)
  | [], k, v => [(k, v)]
  | p :: rest, k, v => if p.1 = k then (k, v) :: rest else p :: aset rest k v

/-- Association-list removal, the embedding of JavaScript `Map.delete`. -/
def adel {α β : Type} [DecidableEq α] (m : List (α × β)) (k : α) : List (α × β) :=
  m.filter (fun p => decide (p.1 ≠ k))

/-- Maximum of a list of naturals, 0 for the empty list (the embedding of the
running `Math.max` folds in the source). -/
def maxL (l : List Nat) : Nat := l.foldr max 0

/-! ### Ids and the static `for` / `remove` id checks (Persisted.ts) -/

/-- Characters treated as whitespace by the modelled JS numeric coercion. -/
def isSpaceC (c : Char) : Bool := c = ' ' || c = '\t' || c = '\n' || c = '\r'

/-- Decimal digit test. -/
def isDigitC (c : Char) : Bool := '0' ≤ c && c ≤ '9'

/-- Value of a list of decimal digit characters. -/
def digitsVal (l : List Char) : Nat := l.foldl (fun a c => a * 10 + (c.toNat - 48)) 0

/-- The JavaScript numeric coercion `Number(s)` of a string, modelled on the
fragment relevant to ids: surrounding whitespace is trimmed, the empty (or
all-whitespace) string coerces to 0, an optional sign followed by decimal
digits with an optional fractional part yields that rational, and anything
else (the non-numeric strings) yields `none`, standing for `NaN`. Exotic
forms (hex, exponents, `Infinity`) are outside the modelled fragment. -/
def jsStringToNumber (s : String) : Option ℚ :=
  let cs := ((s.toList.dropWhile isSpaceC).reverse.dropWhile isSpaceC).reverse
  match cs with
  | [] => some 0
  | _ =>
    let sgn : ℚ := match cs with
      | '-' :: _ => -1
      | _ => 1
    let body : List Char := match cs with
      | '-' :: r => r
      | '+' :: r => r
      | r => r
    let ip := body.takeWhile isDigitC
    let rest := body.drop ip.length
    match rest with
    | [] => if ip.isEmpty then none else some (sgn * (digitsVal ip : ℚ))
    | '.' :: fp =>
      if fp.all isDigitC && (!ip.isEmpty || !fp.isEmpty) then
        some (sgn * ((digitsVal ip : ℚ) + (digitsVal fp : ℚ) / ((10 : ℚ) ^ fp.length)))
      else none
    | _ => none

/-- JavaScript id values reaching the static `for`/`remove` checks: numbers
(ids are integral in this system), strings, `null` and `undefined`. -/
inductive JSId where
  | num (n : Int)
  | str (s : String)
  | null
  | undef
deriving DecidableEq

/-- `typeof id === 'string'`. -/
def isStrB : JSId → Bool
  | JSId.str _ => true
  | _ => false

/-- `id == null` (loose equality: true exactly for `null` and `undefined`). -/
def isNullishB : JSId → Bool
  | JSId.null => true
  | JSId.undef => true
  | _ => false

/-- `!id`: JavaScript falsiness of an id (`0`, `''`, `null`, `undefined`). -/
def isFalsyB : JSId → Bool
  | JSId.num n => n = 0
  | JSId.str s => s.isEmpty
  | JSId.null => true
  | JSId.undef => true

/-- The JavaScript comparison `id > 0`: numbers compare directly, strings are
coerced with `Number` (`NaN` compares false), `null` coerces to 0 and
`undefined` to `NaN`. -/
def jsGreaterThanZeroB : JSId → Bool
  | JSId.num n => 0 < n
  | JSId.str s =>
    match jsStringToNumber s with
    | some q => decide ((0 : ℚ) < q)
    | none => false
  | JSId.null => false
  | JSId.undef => false

/-- The id check of the static `for(id)` (Persisted.ts line 99):
`id > 0 && typeof id === 'string' || id == null`. -/
def forThrowsB (id : JSId) : Bool :=
  (jsGreaterThanZeroB id && isStrB id) || isNullishB id

/-- The id check of the static `remove(id)` (Persisted.ts line 491):
`id > 0 && typeof id === 'string' || !id`. -/
def removeThrowsB (id : JSId) : Bool :=
  (jsGreaterThanZeroB id && isStrB id) || isFalsyB id

/-- The spec's wording of the bad-id rule for `for(id)`: rejected exactly when
the id is `null`/`undefined` or a string that parses as a positive number. -/
def specRejectB (id : JSId) : Bool :=
  match id with
  | JSId.null => true
  | JSId.undef => true
  | JSId.str s =>
    match jsStringToNumber s with
    | some q => decide ((0 : ℚ) < q)
    | none => false
  | JSId.num _ => false

/-! ### The identity map and the static `for(id)` (Persisted.ts lines 98-123) -/

/-- The per-class identity-map state: `instancesById` (instances are
represented by allocation tokens; the construction `new this(id)` allocates a
fresh token) together with the allocator counter. -/
structure ForState where
  instances : List (JSId × Nat)
  nextToken : Nat
deriving DecidableEq

/-- A class with no live instances. -/
def initFor : ForState := ⟨[], 0⟩

/-- The static `for(id)`: throw on a bad id; otherwise return the instance
already mapped in `instancesById`, or construct exactly one fresh instance and
register it under `id`. (The `transform.hasVersion` block in the source
mutates only the class prototype, not the identity map, and is omitted.) -/
def forId (s : ForState) (id : JSId) : Except String (Nat × ForState) :=
  if forThrowsB id then
    Except.error "Id should be a number or non-numeric string"
  else
    match aget s.instances id with
    | some inst => Except.ok (inst, s)
    | none =>
      Except.ok (s.nextToken,
        { instances := aset s.instances id s.nextToken, nextToken := s.nextToken + 1 })

/-- Discriminator for `Except` success, used to state that an id is accepted. -/
def exceptOk {ε α : Type} : Except ε α → Bool
  | Except.ok _ => true
  | Except.error _ => false

/-! ### The indexed-progress computation of `commitOperations` (Index.ts 239-249) -/

/-- JavaScript semantics of the expression `this.queue[0]` in
`commitOperations` (Index.ts line 241): `queue` is a `Map`, and bracket
access reads an own object property of the Map object, not a map entry;
nothing in the source ever assigns an index property on the queue, so the
access always yields `undefined`. The argument is the queue's `(id, version)`
entries in insertion order. -/
def queueIndexZero (_queue : List (Nat × Nat)) : Option Nat := none

/-- The `indexedProgress` computed by `commitOperations` (Index.ts 240-245):
start from `lastIndexedVersion` and, if `this.queue[0]` yields a request, cap
the progress at that request's version minus one. -/
def commitIndexedProgress (queue : List (Nat × Nat)) (lastIndexedVersion : Nat) : Nat :=
  match queueIndexZero queue with
  | some v => min (v - 1) lastIndexedVersion
  | none => lastIndexedVersion

/-- The spec's wording of the same computation: `indexedProgress =
min(firstQueuedRequest.version − 1, lastIndexedVersion)` whenever a request is
still queued. -/
def specIndexedProgress (queue : List (Nat × Nat)) (lastIndexedVersion : Nat) : Nat :=
  match queue.head? with
  | some q => min (q.2 - 1) lastIndexedVersion
  | none => lastIndexedVersion

/-! ### The indexer's per-entry diff, `indexEntry` (Index.ts lines 51-128) -/

/-- One `{key, value}` pair produced by `indexBy`, with `value` already
JSON-serialized by the external codec (`""` for `undefined`, as in the
source's `entry.value === undefined ? '' : JSON.stringify(entry.value)`);
a bare primitive entry of the source corresponds to `⟨key, ""⟩`. -/
structure IEntry where
  key : String
  value : String
deriving DecidableEq

/-- An operation pushed on the index's shared `operations` buffer. -/
inductive IOp where
  | put (key : List Nat) (value : String)
  | del (key : List Nat)
deriving DecidableEq

/-- The composite index key `toBufferKey(key) ‖ 0x1E ‖ toBufferKey(id)`;
`enc` stands for the external ordered-binary `toBufferKey`. -/
def compositeKey (enc : String → List Nat) (k id : String) : List Nat :=
  enc k ++ [30] ++ enc id

/-- The `toRemove` map built from the previous state's entries (Index.ts
59-74): a JS `Map` populated with `toRemove.set(entry.key, previousValue)`. -/
def mkToRemove (prev : List IEntry) : List (String × String) :=
  prev.foldl (fun m e => aset m e.key e.value) []

/-- The loop over the current entries (Index.ts 94-112): for each entry look
up `removedValue = toRemove.get(key)`, delete the key from `toRemove` when
present, and push a `put` at the composite key unless the removed value is
defined and equal to the new serialized value. -/
def processEntries (enc : String → List Nat) (id : String) :
    List (String × String) → List IEntry → List IOp → List (String × String) × List IOp
  | m, [], ops => (m, ops)
  | m, e :: rest, ops =>
    processEntries enc id
      (if (aget m e.key).isSome then adel m e.key else m)
      rest
      (if aget m e.key = some e.value then ops
        else ops ++ [IOp.put (compositeKey enc e.key id) e.value])

/-- The operations emitted by one `indexEntry` call (Index.ts 51-128), as a
function of the previous state's `indexBy` entries (`none` when
`previousState` is undefined), the request's `deleted` flag, and the current
value's `indexBy` entries (`[]` when the loaded value is undefined). After
the put loop, every key remaining in `toRemove` gets a `del` at the same
composite key (Index.ts 114-120). -/
def indexEntryOps (enc : String → List Nat) (id : String)
    (previousState : Option (List IEntry)) (deleted : Bool) (curr : List IEntry) : List IOp :=
  let toRemove := match previousState with
    | some prev => mkToRemove prev
    | none => []
  let pr := if deleted then (toRemove, ([] : List IOp))
    else processEntries enc id toRemove curr []
  pr.2 ++ pr.1.map (fun p => IOp.del (compositeKey enc p.1 id))

/-- The spec's wording of the emitted operations, as a diff: a put for every
current `{key, value}` pair not already present in the previous entries, then
a del for every previous key that is not re-emitted. -/
def specDiffOps (enc : String → List Nat) (id : String)
    (previousState : Option (List IEntry)) (deleted : Bool) (curr : List IEntry) : List IOp :=
  let prev := previousState.getD []
  let cur := if deleted then [] else curr
  (cur.filter (fun e => !(prev.any (fun p => decide (p.key = e.key ∧ p.value = e.value))))).map
      (fun e => IOp.put (compositeKey enc e.key id) e.value)
    ++ (prev.filter (fun p => !(cur.any (fun x => decide (x.key = p.key))))).map
      (fun p => IOp.del (compositeKey enc p.key id))

/-- Key encoding used by concrete witnesses. -/
def encW (s : String) : List Nat := s.toList.map Char.toNat

/-! ### The per-class write batcher, `dbPut` (Persisted.ts lines 598-669)

The batcher is embedded as a sequential state machine: one step is either a
`dbPut` call, the 20 ms commit timer firing with the KV engine's atomic batch
write succeeding (`flush`), or the timer firing with the batch write failing
(`flushFail`). The embedding is the sequential semantics in which a batch
commit completes before the next step (the `when(lastWriteCompletion, ...)`
chaining with no still-pending previous batch); the deferral-aware machine
further below models the pending case, where the commit body waits and the
open batch keeps growing. Completion promises are identified by their
batch's id. -/

/-- One entry of the open batch `Map` (`currentWriteBatch.set(key, {...})`):
the operation type (`put` when a value is given, `remove` otherwise), the
value, and — as ghost data for specification only — the version argument of
the `dbPut` call that wrote the entry. -/
structure BEntry where
  isPut : Bool
  value : String
  version : Nat
deriving DecidableEq

/-- The open write batch: its completion-promise id, its entries keyed by the
unencoded row key (a JS `Map`), and the `writes` / `writeSize` counters. -/
structure WBatch where
  bid : Nat
  entries : List (Nat × BEntry)
  writes : Nat
  writeSize : Nat
deriving DecidableEq

/-- An operation of a flushed batch, as handed to the KV engine's atomic
`batch`: a put or remove of an entity row, or the extra put of the reserved
key `[0x01,0x02]` (`LAST_VERSION_IN_DB_KEY`). Entity-row keys are
`toBufferKey` encodings whose first byte is ≥ 0x02, so they are disjoint from
the reserved key; the embedding keeps them in separate constructors. -/
inductive WOp where
  | put (key : Nat) (value : String)
  | remove (key : Nat)
  | putLast (version : Nat)
deriving DecidableEq

/-- Is an operation the reserved `[0x01,0x02]` watermark put? -/
def isPutLastB : WOp → Bool
  | WOp.putLast _ => true
  | _ => false

/-- Number of entity-row operations (non-watermark) in a flushed batch. -/
def userOpCount (ops : List WOp) : Nat :=
  (ops.filter (fun o => !(isPutLastB o))).length

/-- The per-class batcher state. `lastVersion`, `currentBatch`,
`pendingWrites` and `writeCompletion` are the class fields of the source;
`counter` stands for the external `getNextVersion()` sequence; `watermark` is
the value stored under `[0x01,0x02]` in the class's table; the remaining
fields are ghost history used only in specifications: `flushed` records each
flushed batch's operation list with the `lastVersion` it carried, `written`
the effective version of every `dbPut` call, `committed` the versions of
entries whose batch write succeeded, `resolved`/`rejected` the completion
promises resolved/rejected so far, `failures` the number of logged batch-write
errors, and `dbFailureSignaled` whether the write machinery ever invoked the
class's `onDbFailure` (which the source wires only to registration). -/
structure BState where
  lastVersion : Nat
  counter : Nat
  nextBatchId : Nat
  currentBatch : Option WBatch
  pendingWrites : List Nat
  writeCompletion : Option Nat
  watermark : Option Nat
  flushed : List (List WOp × Nat)
  written : List Nat
  committed : List Nat
  resolved : List Nat
  rejected : List Nat
  failures : Nat
  dbFailureSignaled : Bool
deriving DecidableEq

/-- The batcher state right after `register` initializes the class fields. -/
def initB : BState :=
  ⟨0, 0, 0, none, [], none, none, [], [], [], [], [], 0, false⟩

/-- A batch entry as the operation handed to the KV engine. -/
def entryOp (p : Nat × BEntry) : WOp :=
  if p.2.isPut then WOp.put p.1 p.2.value else WOp.remove p.1

/-- The operation list of a flush (`commitOperations` body, Persisted.ts
617-629): the batch entries in `Map` iteration order followed by the one
extra put of `LAST_VERSION_IN_DB_KEY` with the class's current
`lastVersion`. -/
def mkFlushOps (entries : List (Nat × BEntry)) (lv : Nat) : List WOp :=
  entries.map entryOp ++ [WOp.putLast lv]

/-- Committing the open batch (the body of `commitOperations` once the
previous completion has resolved, Persisted.ts 617-642). On success the
atomic batch lands: the watermark key now holds `lastVersion` and the entry
versions are committed. On failure the engine write is lost, the error is
logged (`console.error`) and `finished()` runs all the same: the batch is
removed from `pendingWrites`, `writeCompletion` is reset when it is still
this batch's, and the completion is resolved — never rejected; nothing in
this path invokes `onDbFailure`. -/
def commitBatch (s : BState) (ok : Bool) : BState :=
  match s.currentBatch with
  | none => s
  | some b =>
    let base : BState := { s with
      currentBatch := none
      flushed := s.flushed ++ [(mkFlushOps b.entries s.lastVersion, s.lastVersion)]
      pendingWrites := s.pendingWrites.erase b.bid
      writeCompletion := if s.writeCompletion = some b.bid then none
        else s.writeCompletion
      resolved := s.resolved ++ [b.bid] }
    if ok then
      { base with
        watermark := some s.lastVersion
        committed := s.committed ++ b.entries.map (fun p => p.2.version) }
    else
      { base with failures := s.failures + 1 }

/-- `dbPut(key, value, version)` (Persisted.ts 598-656): bump `lastVersion`
to `max(lastVersion, version || getNextVersion())`; open a batch if none is
open (registering its completion promise); record the operation by key,
overwriting any earlier op for the same key; post-increment `writes` and —
when the value is a non-empty string — add its length to `writeSize`; flush
immediately when the pre-increment `writes` exceeded 100 or the new
`writeSize` exceeds 100 000. -/
def dbPut (s : BState) (k : Nat) (v : Option String) (ver : Option Nat) : BState :=
  let effVer := match ver with
    | some n => if n = 0 then s.counter + 1 else n
    | none => s.counter + 1
  let counter2 := match ver with
    | some n => if n = 0 then s.counter + 1 else s.counter
    | none => s.counter + 1
  let b0 : WBatch := match s.currentBatch with
    | some b => b
    | none => ⟨s.nextBatchId, [], 0, 0⟩
  let opened : Bool := s.currentBatch.isNone
  let s1 : BState := { s with
    lastVersion := max s.lastVersion effVer
    counter := counter2
    written := s.written ++ [effVer]
    nextBatchId := if opened then s.nextBatchId + 1 else s.nextBatchId
    pendingWrites := if opened then s.pendingWrites ++ [b0.bid] else s.pendingWrites
    writeCompletion := if opened then some b0.bid else s.writeCompletion }
  let b1 : WBatch := { b0 with
    entries := aset b0.entries k ⟨v.isSome, v.getD "", effVer⟩
    writes := b0.writes + 1 }
  if b0.writes > 100 then
    commitBatch { s1 with currentBatch := some b1 } true
  else
    match v with
    | some str =>
      if str.isEmpty then { s1 with currentBatch := some b1 }
      else
        let b2 : WBatch := { b1 with writeSize := b1.writeSize + str.length }
        if b2.writeSize > 100000 then
          commitBatch { s1 with currentBatch := some b2 } true
        else { s1 with currentBatch := some b2 }
    | none => { s1 with currentBatch := some b1 }

/-- One step of the batcher: a `dbPut` call, or the commit timer firing with
the engine's batch write succeeding or failing. -/
inductive BAct where
  | put (k : Nat) (v : Option String) (ver : Option Nat)
  | flush
  | flushFail
deriving DecidableEq

/-- Step function of the batcher machine. -/
def stepB (s : BState) : BAct → BState
  | BAct.put k v ver => dbPut s k v ver
  | BAct.flush => commitBatch s true
  | BAct.flushFail => commitBatch s false

/-- Run of a sequence of batcher steps. -/
def runB (s : BState) (acts : List BAct) : BState := acts.foldl stepB s

/-- Traces consisting only of `dbPut` calls that carry a value and an
explicit version strictly greater than the class's current `lastVersion`
(`getNextVersion()` is a process-global monotone sequence, so versions passed
down are strictly increasing), plus successful timer flushes. -/
def admissiblePuts : BState → List BAct → Bool
  | _, [] => true
  | s, BAct.put k (some str) (some n) :: rest =>
    decide (s.lastVersion < n)
      && admissiblePuts (stepB s (BAct.put k (some str) (some n))) rest
  | s, BAct.flush :: rest => admissiblePuts (stepB s BAct.flush) rest
  | _, _ => false

/-- Is a batcher step a `dbPut`? -/
def isPutActB : BAct → Bool
  | BAct.put _ _ _ => true
  | _ => false

/-- The versions of the open batch's entries. -/
def entryVersions (b : WBatch) : List Nat := b.entries.map (fun p => p.2.version)

/-- A flushed batch is well-formed: its operation list is the entity-row
operations followed by exactly one put of `LAST_VERSION_IN_DB_KEY` carrying
the `lastVersion` recorded at flush time. -/
def GoodBatch (p : List WOp × Nat) : Prop :=
  ∃ us, p.1 = us ++ [WOp.putLast p.2] ∧ ∀ o ∈ us, isPutLastB o = false

/-- The batcher invariant for C3: `lastVersion` is the maximum version ever
written; the stored watermark, when present, is the maximum version ever
committed; the versions covered by the open batch and the committed history
reach up to `lastVersion`; written versions are positive; and every flushed
batch is well-formed. -/
def InvB (s : BState) : Prop :=
  s.lastVersion = maxL s.written ∧
  (s.watermark = none → s.committed = []) ∧
  (∀ w, s.watermark = some w → maxL s.committed = w) ∧
  (∀ b, s.currentBatch = some b →
    b.entries ≠ [] ∧ maxL (entryVersions b ++ s.committed) = s.lastVersion) ∧
  (s.currentBatch = none → maxL s.committed = s.lastVersion) ∧
  (∀ v ∈ s.written, 0 < v) ∧
  (∀ p ∈ s.flushed, GoodBatch p)

/-- `n` distinct-key puts with short values and increasing versions, the
shape of C4's concrete scenarios. -/
def putsN (n : Nat) : List BAct :=
  (List.range n).map (fun i => BAct.put i (some "x") (some (i + 1)))

/-! ### The write batcher with deferred commits (Persisted.ts 611-644)

The machine above commits synchronously; the source, however, defers the
commit body behind `when(lastWriteCompletion, ...)` (Persisted.ts 617): on
the first `commitOperations()` call the function replaces itself with a noop
and clears the timer, and the body — which snapshots the batch `Map`, nulls
`currentWriteBatch`, and starts the engine's atomic batch write — runs
synchronously only when `lastWriteCompletion` (the `writeCompletion` captured
when the batch was opened) is not a pending promise. While the body is
deferred, later `dbPut` calls keep growing the same open batch, so flushed
batches are not bounded by 102 operations. The machine below embeds this:
`settle` is the completion of the oldest in-flight engine write (one ordered
KV table — batch writes complete in submission order), which runs `finished`
(splice from `pendingWrites`, conditional reset of `writeCompletion`, resolve)
and then any commit body deferred on that completion; `resume` is the
microtask running a deferred body whose awaited completion has already
resolved; `timer` is the 20 ms `delayedCommit`. -/

/-- The open batch of the deferral-aware machine: as `WBatch`, plus whether
`commitOperations` has already run (and nooped itself), and the completion
(by batch id) the commit body waits on — `none` when `writeCompletion` was
null at batch creation. -/
structure DBatch where
  bid : Nat
  entries : List (Nat × BEntry)
  writes : Nat
  writeSize : Nat
  triggered : Bool
  lastCompletion : Option Nat
deriving DecidableEq

/-- The deferral-aware batcher state: the class fields plus `inFlight` (the
engine batch writes issued and not yet completed, in issue order), `resolved`
(the completion promises resolved so far, ghost), and `flushed` (ghost: each
snapshotted batch's operations with the `lastVersion` they carried). -/
structure DState where
  lastVersion : Nat
  counter : Nat
  nextBatchId : Nat
  currentBatch : Option DBatch
  pendingWrites : List Nat
  writeCompletion : Option Nat
  inFlight : List Nat
  resolved : List Nat
  flushed : List (List WOp × Nat)
deriving DecidableEq

/-- The deferral-aware batcher right after `register`. -/
def initD : DState := ⟨0, 0, 0, none, [], none, [], [], []⟩

/-- The commit body (Persisted.ts 618-641) once it actually runs: snapshot
the batch `Map` in iteration order followed by the watermark put of the
current `lastVersion`, null `currentWriteBatch`, and hand the operation list
to the engine's atomic `batch` (now in flight; `finished` runs at its
completion). -/
def runBodyD (s : DState) (b : DBatch) : DState :=
  { s with
    currentBatch := none
    flushed := s.flushed ++ [(mkFlushOps b.entries s.lastVersion, s.lastVersion)]
    inFlight := s.inFlight ++ [b.bid] }

/-- `commitOperations()` (Persisted.ts 612-642): a second call is a noop;
the first call clears the timer and runs the body through
`when(lastWriteCompletion, ...)` — synchronously when `lastWriteCompletion`
is null, otherwise deferred until that completion resolves, the batch
remaining open and marked. -/
def commitOperationsD (s : DState) (b : DBatch) : DState :=
  if b.triggered then s
  else
    match b.lastCompletion with
    | none => runBodyD s b
    | some _ => { s with currentBatch := some { b with triggered := true } }

/-- `dbPut` on the deferral-aware machine — identical to `dbPut` above except
that the triggered commit goes through `commitOperationsD`: a batch opened
while the previous batch's completion is pending records it as
`lastCompletion`. -/
def dbPutD (s : DState) (k : Nat) (v : Option String) (ver : Option Nat) : DState :=
  let effVer := match ver with
    | some n => if n = 0 then s.counter + 1 else n
    | none => s.counter + 1
  let counter2 := match ver with
    | some n => if n = 0 then s.counter + 1 else s.counter
    | none => s.counter + 1
  let b0 : DBatch := match s.currentBatch with
    | some b => b
    | none => ⟨s.nextBatchId, [], 0, 0, false, s.writeCompletion⟩
  let opened : Bool := s.currentBatch.isNone
  let s1 : DState := { s with
    lastVersion := max s.lastVersion effVer
    counter := counter2
    nextBatchId := if opened then s.nextBatchId + 1 else s.nextBatchId
    pendingWrites := if opened then s.pendingWrites ++ [b0.bid] else s.pendingWrites
    writeCompletion := if opened then some b0.bid else s.writeCompletion }
  let b1 : DBatch := { b0 with
    entries := aset b0.entries k ⟨v.isSome, v.getD "", effVer⟩
    writes := b0.writes + 1 }
  if b0.writes > 100 then
    commitOperationsD { s1 with currentBatch := some b1 } b1
  else
    match v with
    | some str =>
      if str.isEmpty then { s1 with currentBatch := some b1 }
      else
        let b2 : DBatch := { b1 with writeSize := b1.writeSize + str.length }
        if b2.writeSize > 100000 then
          commitOperationsD { s1 with currentBatch := some b2 } b2
        else { s1 with currentBatch := some b2 }
    | none => { s1 with currentBatch := some b1 }

/-- Completion of the oldest in-flight engine batch write: `finished`
(Persisted.ts 631-637) splices the batch from `pendingWrites`, resets
`writeCompletion` when it is still this batch's, and resolves the completion;
resolving it then runs the commit body of an open batch that was deferred on
exactly this completion. -/
def settleD (s : DState) : DState :=
  match s.inFlight with
  | [] => s
  | bid :: rest =>
    let s1 : DState := { s with
      inFlight := rest
      pendingWrites := s.pendingWrites.erase bid
      writeCompletion := if s.writeCompletion = some bid then none
        else s.writeCompletion
      resolved := s.resolved ++ [bid] }
    match s1.currentBatch with
    | some b =>
      if b.triggered = true ∧ b.lastCompletion = some bid then runBodyD s1 b else s1
    | none => s1

/-- The 20 ms `delayedCommit` timer firing: `commitOperations()` on the open
batch. -/
def timerD (s : DState) : DState :=
  match s.currentBatch with
  | some b => commitOperationsD s b
  | none => s

/-- The microtask running a deferred commit body whose awaited completion has
already resolved (`when` on an already-settled promise still defers to the
microtask queue). -/
def resumeD (s : DState) : DState :=
  match s.currentBatch with
  | some b =>
    if b.triggered && (match b.lastCompletion with
        | none => true
        | some c => s.resolved.contains c) then runBodyD s b
    else s
  | none => s

/-- One step of the deferral-aware batcher. -/
inductive DAct where
  | put (k : Nat) (v : Option String) (ver : Option Nat)
  | settle
  | timer
  | resume
deriving DecidableEq

/-- Step function of the deferral-aware machine. -/
def stepD (s : DState) : DAct → DState
  | DAct.put k v ver => dbPutD s k v ver
  | DAct.settle => settleD s
  | DAct.timer => timerD s
  | DAct.resume => resumeD s

/-- Run of a sequence of deferral-aware batcher steps. -/
def runD (s : DState) (acts : List DAct) : DState := acts.foldl stepD s

/-- `n` distinct-key puts with short values and increasing versions starting
at key `a`, on the deferral-aware machine. -/
def putsDRange (a n : Nat) : List DAct :=
  (List.range n).map (fun i => DAct.put (a + i) (some "x") (some (a + i + 1)))

/-- 250 puts with a scheduling point after each commit: every engine write
completes (and its completion resolves) before the next put arrives. -/
def seq250 : List DAct :=
  putsDRange 0 102 ++ [DAct.settle] ++ putsDRange 102 102 ++ [DAct.settle]
    ++ putsDRange 204 46 ++ [DAct.timer]

/-- 250 puts in one synchronous burst — no engine write completes before the
last put — followed by the completions. -/
def burst250 : List DAct :=
  putsDRange 0 250 ++ [DAct.settle, DAct.settle]

/-- The open batch after two puts on a fresh class (used as a concrete
witness). -/
def dBatchW : DBatch :=
  ⟨0, [(0, ⟨true, "x", 1⟩), (1, ⟨true, "x", 2⟩)], 2, 2, false, none⟩

/-! ### Entity cache state, `clearCache` and reload (Persisted.ts 389-432, 505-517, 671-701)

The entity's in-memory state and the row-load path are embedded for the
`Persisted` field layout (`valueProperty = 'value'`, `versionProperty =
'version'`). The deserialized value is represented by its JSON text: the JSON
codec is an external collaborator and `JSON.parse`/`JSON.stringify` form a
bijection on the values in play, so equality of the serialized forms is
equality of the values. -/

/-- The entity `readyState` values; the unloaded state (`readyState` never
set, or reset to `undefined` by `clearCache`) is `none` at the use sites. -/
inductive ReadyState where
  | loadingLocalData
  | upToDate
  | invalidated
  | noLocalData
deriving DecidableEq

/-- The in-memory per-instance state: `version`, `cachedVersion`, `asJSON`,
the deserialized `_cachedValue` (as its JSON text) and `readyState`. -/
structure EState where
  id : Nat
  version : Nat
  cachedVersion : Int
  asJSON : Option String
  cachedValue : Option String
  readyState : Option ReadyState
deriving DecidableEq

/-- A freshly constructed instance: no fields loaded yet (`cachedVersion`
is compared against -1 in the source, so it starts below every version). -/
def initE (i : Nat) : EState := ⟨i, 0, -1, none, none, none⟩

/-- `clearCache` (Persisted.ts 694-701): drop `asJSON` and the cached
deserialized value, reset `cachedVersion`, and reset `readyState` to
unloaded only when it was up-to-date or invalidated. -/
def clearCache (e : EState) : EState :=
  { e with
    asJSON := none
    cachedValue := none
    cachedVersion := -1
    readyState :=
      if e.readyState = some ReadyState.upToDate
          ∨ e.readyState = some ReadyState.invalidated then none
      else e.readyState }

/-- `clearCache` together with the entity's KV row: the source's `clearCache`
contains no KV-store operation, so the row passes through untouched. -/
def clearCacheKV (e : EState) (row : Option String) : EState × Option String :=
  (clearCache e, row)

/-- Parsing of the stored row bytes (the `withValue` closure of
`loadLocalData`, Persisted.ts 392-409): `"<version>,<json>"` splits at the
first comma into a version and the JSON payload; a bare finite number is an
invalidation marker carrying only a version; anything else carries no local
data. -/
def rowParse (data : String) : Option (Nat × Option String) :=
  match data.toList.findIdx? (fun c => decide (c = ',')) with
  | some i =>
    some (digitsVal (data.toList.take i), some (String.mk (data.toList.drop (i + 1))))
  | none =>
    if data.toList.all isDigitC && !data.isEmpty then
      some (digitsVal data.toList, none)
    else none

/-- `loadLatestLocalData` (Persisted.ts 413-432) for the `Persisted` layout:
a parsed `"v,json"` row makes the instance up-to-date with that version and
JSON (`this.version = Math.max(version, this.version || 0)` followed by
`this[versionProperty] = version` nets to `version`); a version-only row
leaves the instance invalidated at the max version; a missing row allocates a
fresh version (`updateVersion()`, passed in as `fresh`) and records
no-local-data. -/
def loadLatestLocalData (fresh : Nat) (e : EState) (row : Option String) : EState :=
  match row with
  | none => { e with version := fresh, readyState := some ReadyState.noLocalData }
  | some data =>
    match rowParse data with
    | some (v, some json) =>
      { e with readyState := some ReadyState.upToDate, version := v, asJSON := some json }
    | some (v, none) =>
      { e with version := max v e.version, readyState := some ReadyState.invalidated }
    | none => { e with version := fresh, readyState := some ReadyState.noLocalData }

/-- The `value` property getter (Persisted.ts 505-517): return the cached
deserialized value when present, otherwise deserialize `asJSON` (identity on
the JSON text in this embedding) and cache it; `undefined` when there is no
JSON. -/
def getValueProp (e : EState) : Option String × EState :=
  match e.cachedValue with
  | some v => (some v, e)
  | none =>
    match e.asJSON with
    | some j => (some j, { e with cachedValue := some j })
    | none => (none, e)

/-- `valueOf` (Persisted.ts 671-692) with no ambient context: resolve
`readyState` by loading the row if the instance is unloaded, then read the
value property. -/
def valueOfModel (fresh : Nat) (e : EState) (row : Option String) :
    Option String × EState :=
  let e1 := match e.readyState with
    | some _ => e
    | none => loadLatestLocalData fresh e row
  getValueProp e1

/-! ### The permission proxy's `stopNotifies` override (Persisted.ts 879-936)

The proxy's `get` trap returns `methodOverrides[name].bind(target)` for an
overridden name, so inside the `stopNotifies` override the receiver `this` is
the wrapped target object — a plain object whose method dispatch does not go
back through the proxy. -/

/-- A wrapped target object, reduced to its own `stopNotifies` behaviour:
from a listener argument to an observable result. -/
structure TargetObj where
  stopNotifiesImpl : Nat → Nat

/-- A method receiver: the plain wrapped object, or the permission proxy
around it. -/
inductive Receiver where
  | plain (t : TargetObj)
  | proxyOf (t : TargetObj)

/-- Discriminator: is the receiver the proxy? -/
def isProxyReceiver : Receiver → Bool
  | Receiver.proxyOf _ => true
  | Receiver.plain _ => false

/-- The receiver the `get` trap binds the `stopNotifies` override to
(Persisted.ts 898-899: `methodOverrides[name].bind(target)`): the wrapped
target itself, not the proxy. -/
def overrideBoundReceiver (t : TargetObj) : Receiver := Receiver.plain t

/-- Result of a `stopNotifies` call: the wrapped target's own method ran (with
its result), or the call never reached it within the given call-depth budget
(what unbounded self-recursion would produce for every budget). -/
inductive CallRes where
  | delegated (r : Nat)
  | outOfFuel
deriving DecidableEq

/-- Invoking `stopNotifies` on a receiver, with a call-depth budget: on the
plain object it is the object's own method; on the proxy it executes the
override `stopNotifies(target) { return this.stopNotifies(target) }` whose
`this` is `overrideBoundReceiver` — the wrapped target, per `.bind(target)`. -/
def invokeStopNotifies : Receiver → Nat → Nat → CallRes
  | Receiver.plain t, arg, _ => CallRes.delegated (t.stopNotifiesImpl arg)
  | Receiver.proxyOf _, _, 0 => CallRes.outOfFuel
  | Receiver.proxyOf t, arg, fuel + 1 => invokeStopNotifies (overrideBoundReceiver t) arg fuel

/-- A concrete wrapped object whose `stopNotifies` returns a recognizable
marker. -/
def testTarget : TargetObj := ⟨fun n => n + 100⟩

/-! ### Theorems and helper lemmas -/

theorem aget_aset_self {α β : Type} [DecidableEq α] (m : List (α × β)) (k : α) (v : β) :
    aget (aset m k v) k = some v := by
  induction m with
  | nil => simp [aset, aget]
  | cons p rest ih =>
    by_cases h : p.1 = k
    · simp [aset, h, aget]
    · simp [aset, h, aget, ih]

theorem aget_aset_ne {α β : Type} [DecidableEq α] (m : List (α × β)) (k j : α) (v : β)
    (h : j ≠ k) : aget (aset m k v) j = aget m j := by
  have hkj : ¬ (k = j) := fun hh => h hh.symm
  induction m with
  | nil => simp [aset, aget, hkj]
  | cons p rest ih =>
    by_cases hp : p.1 = k
    · rw [aset, if_pos hp, aget, if_neg hkj, aget, hp, if_neg hkj]
    · rw [aset, if_neg hp, aget, aget]
      by_cases hj : p.1 = j
      · rw [if_pos hj, if_pos hj]
      · rw [if_neg hj, if_neg hj, ih]

theorem aset_of_none {α β : Type} [DecidableEq α] (m : List (α × β)) (k : α) (v : β)
    (h : aget m k = none) : aset m k v = m ++ [(k, v)] := by
  induction m with
  | nil => simp [aset]
  | cons p rest ih =>
    by_cases hp : p.1 = k
    · simp [aget, hp] at h
    · simp [aget, hp] at h
      simp [aset, hp, ih h]

theorem mem_aset_self {α β : Type} [DecidableEq α] (m : List (α × β)) (k : α) (v : β) :
    (k, v) ∈ aset m k v := by
  induction m with
  | nil => simp [aset]
  | cons p rest ih =>
    by_cases hp : p.1 = k
    · simp [aset, hp]
    · simp [aset, hp]
      exact Or.inr ih

theorem mem_aset_elim {α β : Type} [DecidableEq α] (m : List (α × β)) (k : α) (v : β)
    (q : α × β) (h : q ∈ aset m k v) : q ∈ m ∨ q = (k, v) := by
  induction m with
  | nil => simp [aset] at h; exact Or.inr h
  | cons p rest ih =>
    by_cases hp : p.1 = k
    · simp [aset, hp] at h
      rcases h with h | h
      · exact Or.inr h
      · exact Or.inl (List.mem_cons_of_mem _ h)
    · simp [aset, hp] at h
      rcases h with h | h
      · exact Or.inl (by simp [h])
      · rcases ih h with h' | h'
        · exact Or.inl (List.mem_cons_of_mem _ h')
        · exact Or.inr h'

theorem aset_ne_nil {α β : Type} [DecidableEq α] (m : List (α × β)) (k : α) (v : β) :
    aset m k v ≠ [] := by
  cases m with
  | nil => simp [aset]
  | cons p rest =>
    by_cases hp : p.1 = k <;> simp [aset, hp]

theorem length_aset_le {α β : Type} [DecidableEq α] (m : List (α × β)) (k : α) (v : β) :
    (aset m k v).length ≤ m.length + 1 := by
  induction m with
  | nil => simp [aset]
  | cons p rest ih =>
    by_cases hp : p.1 = k
    · simp [aset, hp]
    · simp [aset, hp]
      omega

theorem aget_adel_ne {α β : Type} [DecidableEq α] (m : List (α × β)) (k j : α)
    (h : j ≠ k) : aget (adel m k) j = aget m j := by
  induction m with
  | nil => simp [adel, aget]
  | cons p rest ih =>
    by_cases hp : p.1 = k
    · have hpj : ¬ (p.1 = j) := by rw [hp]; exact fun hh => h hh.symm
      have : adel (p :: rest) k = adel rest k := by
        simp [adel, List.filter, hp]
      rw [this, ih, aget, if_neg hpj]
    · have : adel (p :: rest) k = p :: adel rest k := by
        simp [adel, List.filter, hp]
      rw [this, aget, aget]
      by_cases hj : p.1 = j
      · rw [if_pos hj, if_pos hj]
      · rw [if_neg hj, if_neg hj, ih]

theorem adel_of_none {α β : Type} [DecidableEq α] (m : List (α × β)) (k : α)
    (h : aget m k = none) : adel m k = m := by
  induction m with
  | nil => simp [adel]
  | cons p rest ih =>
    by_cases hp : p.1 = k
    · simp [aget, hp] at h
    · simp [aget, hp] at h
      simp [adel, hp]
      simpa [adel] using ih h

theorem maxL_nil : maxL [] = 0 := rfl

theorem maxL_cons (a : Nat) (l : List Nat) : maxL (a :: l) = max a (maxL l) := rfl

theorem maxL_append (l1 l2 : List Nat) : maxL (l1 ++ l2) = max (maxL l1) (maxL l2) := by
  induction l1 with
  | nil => simp [maxL]
  | cons a l ih =>
    simp only [List.cons_append, maxL_cons, ih]
    exact (Nat.max_assoc a (maxL l) (maxL l2)).symm

theorem le_maxL_of_mem {a : Nat} {l : List Nat} (h : a ∈ l) : a ≤ maxL l := by
  induction l with
  | nil => simp at h
  | cons b l ih =>
    rcases List.mem_cons.mp h with h | h
    · rw [h, maxL_cons]; exact Nat.le_max_left _ _
    · rw [maxL_cons]; exact le_trans (ih h) (Nat.le_max_right _ _)

theorem maxL_le {l : List Nat} {m : Nat} (h : ∀ x ∈ l, x ≤ m) : maxL l ≤ m := by
  induction l with
  | nil => simp [maxL]
  | cons a l ih =>
    rw [maxL_cons]
    exact max_le (h a (by simp)) (ih fun x hx => h x (by simp [hx]))

theorem maxL_eq_of_mem_of_le {a : Nat} {l : List Nat} (h1 : a ∈ l)
    (h2 : ∀ x ∈ l, x ≤ a) : maxL l = a :=
  le_antisymm (maxL_le h2) (le_maxL_of_mem h1)

theorem maxL_pos_ne_nil {l : List Nat} (h : 0 < maxL l) : l ≠ [] := by
  intro hnil
  rw [hnil] at h
  simp [maxL] at h

/-- C6: the static `for(id)` throws the bad-id error exactly when `id` is a
string that coerces to a positive number or is `null`/`undefined`; every
number is accepted (in particular every positive integer), and every id the
check does not reject — including non-numeric strings — yields an instance. -/
theorem for_badId_characterization :
    (∀ id, forThrowsB id = specRejectB id) ∧
    (∀ n : Int, forThrowsB (JSId.num n) = false) ∧
    (∀ (s : ForState) (id : JSId), forThrowsB id = false → exceptOk (forId s id) = true) := by
  refine ⟨?_, ?_, ?_⟩
  · intro id
    cases id with
    | num n => simp [forThrowsB, specRejectB, isStrB, isNullishB, jsGreaterThanZeroB]
    | str s => simp [forThrowsB, specRejectB, isStrB, isNullishB, jsGreaterThanZeroB]
    | null => rfl
    | undef => rfl
  · intro n
    simp [forThrowsB, isStrB, isNullishB]
  · intro s id h
    unfold forId
    simp only [h, Bool.false_eq_true, if_false]
    cases aget s.instances id <;> rfl

/-- Witness for C6: the positive integer id 3 is accepted by `for`. -/
theorem for_badId_characterization_witness :
    exceptOk (forId initFor (JSId.num 3)) = true :=
  for_badId_characterization.2.2 initFor (JSId.num 3) (by decide)

/-- C5: identity invariant of the static `for(id)`. When `for(id)` returns an
instance, that instance is the one registered under `id`; calling `for(id)`
again with no intervening eviction or removal returns the very same instance
and state; other ids' registrations are untouched; and the call either
returned the instance already mapped in `instancesById` or registered exactly
one freshly constructed instance under `id`. -/
theorem for_identity (s : ForState) (id : JSId) (x : Nat) (s' : ForState)
    (h : forId s id = Except.ok (x, s')) :
    aget s'.instances id = some x ∧
    forId s' id = Except.ok (x, s') ∧
    (∀ j, j ≠ id → aget s'.instances j = aget s.instances j) ∧
    ((aget s.instances id = some x ∧ s' = s) ∨
      (aget s.instances id = none ∧ s'.instances = s.instances ++ [(id, x)])) := by
  unfold forId at h
  by_cases ht : forThrowsB id = true
  · rw [if_pos ht] at h
    exact absurd h (by simp)
  · rw [if_neg ht] at h
    cases hg : aget s.instances id with
    | some inst =>
      rw [hg] at h
      simp only [Except.ok.injEq, Prod.mk.injEq] at h
      obtain ⟨hx, hs⟩ := h
      refine ⟨?_, ?_, ?_, Or.inl ⟨?_, hs.symm⟩⟩
      · rw [← hs, ← hx]; exact hg
      · rw [← hs, ← hx]; unfold forId; rw [if_neg ht, hg]
      · intro j _; rw [← hs]
      · rw [← hx]
    | none =>
      rw [hg] at h
      simp only [Except.ok.injEq, Prod.mk.injEq] at h
      obtain ⟨hx, hs⟩ := h
      refine ⟨?_, ?_, ?_, Or.inr ⟨rfl, ?_⟩⟩
      · rw [← hs, ← hx]; exact aget_aset_self _ _ _
      · rw [← hs, ← hx]; simp [forId, ht, aget_aset_self]
      · intro j hj
        rw [← hs]
        exact aget_aset_ne _ _ _ _ hj
      · rw [← hs, ← hx]
        exact aset_of_none _ _ _ hg

/-- Witness for C5: on a fresh class, `for(5)` registers token 0 under id 5. -/
theorem for_identity_witness :
    aget (⟨[(JSId.num 5, 0)], 1⟩ : ForState).instances (JSId.num 5) = some 0 :=
  (for_identity initFor (JSId.num 5) 0 ⟨[(JSId.num 5, 0)], 1⟩ (by rfl)).1

/-- C10: the static `remove(id)` throws the bad-id error for every falsy id —
including the number 0 and the empty string — which `for(id)` accepts, and
every id rejected by `for` is also rejected by `remove`, so `remove` rejects
strictly more ids than `for`. -/
theorem remove_rejects_more_ids :
    removeThrowsB (JSId.num 0) = true ∧
    removeThrowsB (JSId.str "") = true ∧
    forThrowsB (JSId.num 0) = false ∧
    forThrowsB (JSId.str "") = false ∧
    (∀ id, forThrowsB id = true → removeThrowsB id = true) := by
  refine ⟨by decide, by decide, by decide, by decide, ?_⟩
  intro id h
  cases id with
  | num n => simp [forThrowsB, isStrB, isNullishB] at h
  | str s =>
    simp only [forThrowsB, isStrB, isNullishB, Bool.and_true, Bool.or_false] at h
    simp [removeThrowsB, isStrB, h]
  | null => rfl
  | undef => rfl

/-- Witness for C10: `null`, rejected by `for`, is also rejected by `remove`. -/
theorem remove_rejects_more_ids_witness :
    removeThrowsB JSId.null = true :=
  remove_rejects_more_ids.2.2.2.2 JSId.null (by decide)

/-- C1 (evaluation of the divergence): on a queue whose first request has
version 5 with `lastIndexedVersion = 10`, `commitOperations` computes
`indexedProgress = 10` — because `this.queue[0]` on a `Map` is `undefined`,
the min with the first queued version is never applied — while the spec's
`min(firstQueuedRequest.version − 1, lastIndexedVersion)` is 4. -/
theorem commitOperations_progress_bug :
    commitIndexedProgress [(7, 5)] 10 = 10 ∧
    specIndexedProgress [(7, 5)] 10 = 4 ∧
    commitIndexedProgress [(7, 5)] 10 ≠ specIndexedProgress [(7, 5)] 10 := by
  decide

theorem aget_append {α β : Type} [DecidableEq α] (l1 l2 : List (α × β)) (k : α) :
    aget (l1 ++ l2) k = match aget l1 k with
      | some v => some v
      | none => aget l2 k := by
  induction l1 with
  | nil => simp [aget]
  | cons p rest ih =>
    by_cases hp : p.1 = k
    · simp [aget, hp]
    · simp [aget, hp, ih]

theorem filterFilter {α : Type} (p q : α → Bool) (l : List α) :
    (l.filter p).filter q = l.filter (fun a => p a && q a) := by
  induction l with
  | nil => rfl
  | cons a rest ih =>
    by_cases hp : p a = true
    · by_cases hq : q a = true
      · simp [List.filter, hp, hq, ih]
      · simp [List.filter, hp, hq, ih]
    · simp [List.filter, hp, ih]

theorem filterOfMap {α β : Type} (f : α → β) (q : β → Bool) (l : List α) :
    (l.map f).filter q = (l.filter (fun a => q (f a))).map f := by
  induction l with
  | nil => rfl
  | cons a rest ih =>
    by_cases hq : q (f a) = true
    · simp [List.filter, hq, ih]
    · simp [List.filter, hq, ih]

theorem processEntries_spec (enc : String → List Nat) (id : String) (curr : List IEntry)
    (hnd : (curr.map IEntry.key).Nodup) (m : List (String × String)) (ops : List IOp) :
    processEntries enc id m curr ops =
      (m.filter (fun p => !(curr.any (fun x => decide (x.key = p.1)))),
       ops ++ (curr.filter (fun e => !(decide (aget m e.key = some e.value)))).map
         (fun e => IOp.put (compositeKey enc e.key id) e.value)) := by
  induction curr generalizing m ops with
  | nil => simp [processEntries]
  | cons e rest ih =>
    have hk : e.key ∉ rest.map IEntry.key := (List.nodup_cons.mp (by simpa using hnd)).1
    have hnd' : (rest.map IEntry.key).Nodup := (List.nodup_cons.mp (by simpa using hnd)).2
    have hm' : (if (aget m e.key).isSome then adel m e.key else m) = adel m e.key := by
      cases hg : aget m e.key with
      | some v => simp [hg]
      | none => simp [hg, adel_of_none _ _ hg]
    rw [processEntries, hm', ih hnd']
    have hA : (adel m e.key).filter (fun p => !(rest.any (fun x => decide (x.key = p.1))))
        = m.filter (fun p => !((e :: rest).any (fun x => decide (x.key = p.1)))) := by
      rw [adel, filterFilter]
      apply List.filter_congr
      intro a _
      by_cases hax : a.1 = e.key
      · simp [hax, List.any_cons]
      · have hax2 : ¬ (e.key = a.1) := fun h => hax h.symm
        simp [List.any_cons, hax, hax2]
    have hrest : rest.filter
          (fun x => !(decide (aget (adel m e.key) x.key = some x.value)))
        = rest.filter (fun x => !(decide (aget m x.key = some x.value))) := by
      apply List.filter_congr
      intro x hx
      have hxk : x.key ≠ e.key := by
        intro hcontra
        exact hk (hcontra ▸ List.mem_map_of_mem IEntry.key hx)
      rw [aget_adel_ne _ _ _ hxk]
    rw [hA, hrest]
    by_cases hcase : aget m e.key = some e.value
    · have hce : (!(decide (aget m e.key = some e.value))) = false := by simp [hcase]
      rw [if_pos hcase]
      have : (e :: rest).filter (fun x => !(decide (aget m x.key = some x.value)))
          = rest.filter (fun x => !(decide (aget m x.key = some x.value))) := by
        simp [List.filter, hcase]
      rw [this]
    · rw [if_neg hcase]
      have : (e :: rest).filter (fun x => !(decide (aget m x.key = some x.value)))
          = e :: rest.filter (fun x => !(decide (aget m x.key = some x.value))) := by
        simp [List.filter, hcase]
      rw [this]
      simp

theorem foldl_aset_append (prev : List IEntry) (acc : List (String × String))
    (hnd : (prev.map IEntry.key).Nodup)
    (hacc : ∀ e ∈ prev, aget acc e.key = none) :
    prev.foldl (fun m e => aset m e.key e.value) acc
      = acc ++ prev.map (fun e => (e.key, e.value)) := by
  induction prev generalizing acc with
  | nil => simp
  | cons e rest ih =>
    have hk : e.key ∉ rest.map IEntry.key := (List.nodup_cons.mp (by simpa using hnd)).1
    have hnd' : (rest.map IEntry.key).Nodup := (List.nodup_cons.mp (by simpa using hnd)).2
    simp only [List.foldl_cons]
    rw [aset_of_none _ _ _ (hacc e (by simp))]
    rw [ih _ hnd' ?_]
    · simp
    · intro x hx
      rw [aget_append]
      rw [hacc x (by simp [hx])]
      have hxk : ¬ (e.key = x.key) := by
        intro hcontra
        exact hk (hcontra ▸ List.mem_map_of_mem IEntry.key hx)
      simp [aget, hxk]

theorem mkToRemove_eq (prev : List IEntry) (hnd : (prev.map IEntry.key).Nodup) :
    mkToRemove prev = prev.map (fun e => (e.key, e.value)) := by
  have := foldl_aset_append prev [] hnd (fun _ _ => rfl)
  simpa [mkToRemove] using this

theorem aget_pairs_any (prev : List IEntry) (hnd : (prev.map IEntry.key).Nodup)
    (k v : String) :
    prev.any (fun p => decide (p.key = k ∧ p.value = v))
      = decide (aget (prev.map (fun e => (e.key, e.value))) k = some v) := by
  induction prev with
  | nil => simp [aget]
  | cons p rest ih =>
    have hk : p.key ∉ rest.map IEntry.key := (List.nodup_cons.mp (by simpa using hnd)).1
    have hnd' : (rest.map IEntry.key).Nodup := (List.nodup_cons.mp (by simpa using hnd)).2
    have hag : aget ((p.key, p.value) :: rest.map (fun e => (e.key, e.value))) k
        = if p.key = k then some p.value
          else aget (rest.map (fun e => (e.key, e.value))) k := rfl
    by_cases hpk : p.key = k
    · have hres : rest.any (fun q => decide (q.key = k ∧ q.value = v)) = false := by
        rw [List.any_eq_false]
        intro q hq
        simp only [decide_eq_true_eq, not_and]
        intro hq1 _
        exact hk ((hq1.trans hpk.symm) ▸ List.mem_map_of_mem IEntry.key hq)
      rw [List.map_cons, hag, if_pos hpk, List.any_cons, hres, Bool.or_false]
      by_cases hv : p.value = v <;> simp [hpk, hv]
    · rw [List.map_cons, hag, if_neg hpk, List.any_cons, ih hnd']
      have hfalse : decide (p.key = k ∧ p.value = v) = false := by simp [hpk]
      rw [hfalse, Bool.false_or]

/-- C2: the operations emitted by `indexEntry` for one request equal the diff
of the previous `indexBy` entries against the current ones (entries with
pairwise-distinct keys): an unchanged `{key, value}` pair produces no
operation, a new or changed pair produces a `put` at
`toBufferKey(key) ‖ 0x1E ‖ toBufferKey(id)` with the serialized value, and
every previous key not re-emitted produces a `del` at the same composite
key. -/
theorem indexEntry_diff (enc : String → List Nat) (id : String)
    (previousState : Option (List IEntry)) (deleted : Bool) (curr : List IEntry)
    (hp : ((previousState.getD []).map IEntry.key).Nodup)
    (hc : (curr.map IEntry.key).Nodup) :
    indexEntryOps enc id previousState deleted curr
      = specDiffOps enc id previousState deleted curr := by
  cases previousState with
  | none =>
    simp only [indexEntryOps, specDiffOps, Option.getD_none]
    by_cases hd : deleted = true
    · simp [hd]
    · simp only [hd, Bool.false_eq_true, if_false]
      rw [processEntries_spec enc id curr hc]
      simp [aget]
  | some prev =>
    have hp' : (prev.map IEntry.key).Nodup := by simpa using hp
    simp only [indexEntryOps, specDiffOps, Option.getD_some]
    rw [mkToRemove_eq prev hp']
    by_cases hd : deleted = true
    · simp only [hd, if_true]
      simp [filterOfMap, List.map_map, Function.comp]
    · simp only [hd, Bool.false_eq_true, if_false]
      rw [processEntries_spec enc id curr hc]
      have hputs : curr.filter
            (fun e => !(decide (aget (prev.map
              (fun x => (x.key, x.value))) e.key = some e.value)))
          = curr.filter (fun e => !(prev.any
              (fun p => decide (p.key = e.key ∧ p.value = e.value)))) := by
        apply List.filter_congr
        intro e _
        rw [aget_pairs_any prev hp']
      rw [hputs, filterOfMap, List.map_map]
      simp [Function.comp]

/-- Witness for C2 at a concrete request: previous entries a↦"1", b↦"2",
current entries a↦"1" (unchanged) and c↦"3" (new). -/
theorem indexEntry_diff_witness :
    indexEntryOps encW "7"
        (some [⟨"a", "1"⟩, ⟨"b", "2"⟩]) false [⟨"a", "1"⟩, ⟨"c", "3"⟩]
      = specDiffOps encW "7"
        (some [⟨"a", "1"⟩, ⟨"b", "2"⟩]) false [⟨"a", "1"⟩, ⟨"c", "3"⟩] :=
  indexEntry_diff encW "7" (some [⟨"a", "1"⟩, ⟨"b", "2"⟩]) false
    [⟨"a", "1"⟩, ⟨"c", "3"⟩] (by decide) (by decide)

theorem goodBatch_mkFlushOps (entries : List (Nat × BEntry)) (lv : Nat) :
    GoodBatch (mkFlushOps entries lv, lv) := by
  refine ⟨entries.map entryOp, rfl, ?_⟩
  intro o ho
  obtain ⟨p, _, rfl⟩ := List.mem_map.mp ho
  unfold entryOp
  by_cases hp : p.2.isPut <;> simp [hp, isPutLastB]

theorem userOpCount_mkFlushOps (entries : List (Nat × BEntry)) (lv : Nat) :
    userOpCount (mkFlushOps entries lv) = entries.length := by
  have h1 : (entries.map entryOp).filter (fun o => !(isPutLastB o)) = entries.map entryOp := by
    rw [List.filter_eq_self]
    intro o ho
    obtain ⟨p, _, rfl⟩ := List.mem_map.mp ho
    unfold entryOp
    by_cases hp : p.2.isPut <;> simp [hp, isPutLastB]
  unfold userOpCount mkFlushOps
  rw [List.filter_append, h1]
  simp [isPutLastB]

theorem commitBatch_written (s : BState) (ok : Bool) :
    (commitBatch s ok).written = s.written := by
  cases hc : s.currentBatch <;> cases ok <;> simp [commitBatch, hc]

theorem invB_init : InvB initB := by
  refine ⟨rfl, fun _ => rfl, ?_, ?_, fun _ => rfl, ?_, ?_⟩ <;> intros <;> simp_all [initB]

theorem invB_commit (s : BState) (hInv : InvB s) : InvB (commitBatch s true) := by
  cases hc : s.currentBatch with
  | none => simpa [commitBatch, hc] using hInv
  | some b =>
    obtain ⟨h1, h2, h3, h4, h5, h6, h7⟩ := hInv
    obtain ⟨hbne, hbmax⟩ := h4 b hc
    simp only [commitBatch, hc, if_true]
    refine ⟨h1, ?_, ?_, ?_, ?_, h6, ?_⟩
    · intro hw
      simp at hw
    · intro w hw
      simp only [Option.some.injEq] at hw
      subst hw
      rw [maxL_append, Nat.max_comm, ← maxL_append]
      exact hbmax
    · intro b' hb'
      simp at hb'
    · intro _
      rw [maxL_append, Nat.max_comm, ← maxL_append]
      exact hbmax
    · intro p hp
      rcases List.mem_append.mp hp with hp | hp
      · exact h7 p hp
      · simp only [List.mem_singleton] at hp
        rw [hp]
        exact goodBatch_mkFlushOps _ _

theorem invB_mid (s st : BState) (hInv : InvB s) (n : Nat) (hn : s.lastVersion < n)
    (bX : WBatch) (b0entries : List (Nat × BEntry)) (k : Nat) (en : BEntry)
    (hen : en.version = n)
    (hold : ∀ x ∈ b0entries.map (fun p => p.2.version) ++ s.committed, x ≤ s.lastVersion)
    (hbe : bX.entries = aset b0entries k en)
    (hLV : st.lastVersion = max s.lastVersion n)
    (hW : st.written = s.written ++ [n])
    (hwm : st.watermark = s.watermark)
    (hcm : st.committed = s.committed)
    (hfl : st.flushed = s.flushed)
    (hcb : st.currentBatch = some bX) :
    InvB st := by
  obtain ⟨h1, h2, h3, h4, h5, h6, h7⟩ := hInv
  have hmaxn : max s.lastVersion n = n := Nat.max_eq_right (le_of_lt hn)
  refine ⟨?_, ?_, ?_, ?_, ?_, ?_, ?_⟩
  · rw [hLV, hW, maxL_append, ← h1]
    simp [maxL]
  · intro hwn
    rw [hcm]
    exact h2 (hwm ▸ hwn)
  · intro w hw
    rw [hcm]
    exact h3 w (hwm ▸ hw)
  · intro b' hb'
    rw [hcb, Option.some.injEq] at hb'
    subst hb'
    constructor
    · rw [hbe]
      exact aset_ne_nil _ _ _
    · rw [hLV, hmaxn, hcm]
      apply maxL_eq_of_mem_of_le
      · apply List.mem_append_left
        unfold entryVersions
        rw [hbe]
        exact hen ▸ List.mem_map_of_mem _ (mem_aset_self _ _ _)
      · intro x hx
        rcases List.mem_append.mp hx with hx | hx
        · unfold entryVersions at hx
          rw [hbe] at hx
          obtain ⟨q, hq, rfl⟩ := List.mem_map.mp hx
          rcases mem_aset_elim _ _ _ _ hq with hq' | hq'
          · exact le_of_lt (lt_of_le_of_lt
              (hold _ (List.mem_append_left _ (List.mem_map_of_mem _ hq'))) hn)
          · rw [hq']
            exact le_of_eq hen
        · exact le_of_lt (lt_of_le_of_lt (hold _ (List.mem_append_right _ hx)) hn)
  · intro hnone
    rw [hcb] at hnone
    exact absurd hnone (by simp)
  · intro v hv
    rw [hW] at hv
    rcases List.mem_append.mp hv with hv | hv
    · exact h6 v hv
    · simp only [List.mem_singleton] at hv
      subst hv
      omega
  · intro p hp
    rw [hfl] at hp
    exact h7 p hp

theorem invB_dbPut (s : BState) (k : Nat) (str : String) (n : Nat)
    (hInv : InvB s) (hn : s.lastVersion < n) :
    InvB (dbPut s k (some str) (some n)) := by
  have hn0 : ¬ (n = 0) := by omega
  cases hc : s.currentBatch with
  | none =>
    have hold : ∀ x ∈ ([] : List (Nat × BEntry)).map (fun p => p.2.version) ++ s.committed,
        x ≤ s.lastVersion := by
      intro x hx
      simp only [List.map_nil, List.nil_append] at hx
      rw [← hInv.2.2.2.2.1 hc]
      exact le_maxL_of_mem hx
    simp only [dbPut, hc, if_neg hn0, Option.isNone_none, Option.isSome_some,
      Option.getD_some, if_true]
    rw [if_neg (show ¬ ((⟨s.nextBatchId, [], 0, 0⟩ : WBatch).writes > 100) by
      simp)]
    by_cases hemp : str.isEmpty = true
    · rw [if_pos hemp]
      exact invB_mid s _ hInv n hn _ [] k _ rfl hold rfl rfl rfl rfl rfl rfl rfl
    · rw [if_neg hemp]
      by_cases hsz : (⟨s.nextBatchId, aset ([] : List (Nat × BEntry)) k
          ⟨true, str, n⟩, 0 + 1, 0⟩ : WBatch).writeSize + str.length > 100000
      · rw [if_pos hsz]
        exact invB_commit _
          (invB_mid s _ hInv n hn _ [] k _ rfl hold rfl rfl rfl rfl rfl rfl rfl)
      · rw [if_neg hsz]
        exact invB_mid s _ hInv n hn _ [] k _ rfl hold rfl rfl rfl rfl rfl rfl rfl
  | some b =>
    have h4b := (hInv.2.2.2.1 b hc).2
    have hold : ∀ x ∈ b.entries.map (fun p => p.2.version) ++ s.committed,
        x ≤ s.lastVersion := by
      intro x hx
      rw [← h4b]
      exact le_maxL_of_mem hx
    simp only [dbPut, hc, if_neg hn0, Option.isNone_some, Option.isSome_some,
      Option.getD_some, Bool.false_eq_true, if_false]
    by_cases hw : b.writes > 100
    · rw [if_pos hw]
      exact invB_commit _
        (invB_mid s _ hInv n hn _ b.entries k _ rfl hold rfl rfl rfl rfl rfl rfl rfl)
    · rw [if_neg hw]
      by_cases hemp : str.isEmpty = true
      · rw [if_pos hemp]
        exact invB_mid s _ hInv n hn _ b.entries k _ rfl hold rfl rfl rfl rfl rfl rfl rfl
      · rw [if_neg hemp]
        by_cases hsz : (⟨b.bid, aset b.entries k ⟨true, str, n⟩, b.writes + 1,
            b.writeSize⟩ : WBatch).writeSize + str.length > 100000
        · rw [if_pos hsz]
          exact invB_commit _
            (invB_mid s _ hInv n hn _ b.entries k _ rfl hold rfl rfl rfl rfl rfl rfl rfl)
        · rw [if_neg hsz]
          exact invB_mid s _ hInv n hn _ b.entries k _ rfl hold rfl rfl rfl rfl rfl rfl rfl

theorem dbPut_written_ne (s : BState) (k : Nat) (v : Option String) (ver : Option Nat) :
    (dbPut s k v ver).written ≠ [] := by
  simp only [dbPut]
  split
  · rw [commitBatch_written]
    simp
  · split
    · split
      · simp
      · split
        · rw [commitBatch_written]
          simp
        · simp
    · simp

theorem runB_written_ne (acts : List BAct) :
    ∀ s : BState, (s.written ≠ [] ∨ acts.any isPutActB = true) →
      (runB s acts).written ≠ [] := by
  induction acts with
  | nil =>
    intro s h
    rcases h with h | h
    · exact h
    · simp at h
  | cons a rest ih =>
    intro s h
    show (runB (stepB s a) rest).written ≠ []
    apply ih
    cases a with
    | put k v ver =>
      left
      exact dbPut_written_ne s k v ver
    | flush =>
      rcases h with h | h
      · left
        rw [show stepB s BAct.flush = commitBatch s true from rfl, commitBatch_written]
        exact h
      · right
        simpa [List.any_cons, isPutActB] using h
    | flushFail =>
      rcases h with h | h
      · left
        rw [show stepB s BAct.flushFail = commitBatch s false from rfl, commitBatch_written]
        exact h
      · right
        simpa [List.any_cons, isPutActB] using h

theorem invB_run (acts : List BAct) :
    ∀ s : BState, InvB s → admissiblePuts s acts = true → InvB (runB s acts) := by
  induction acts with
  | nil =>
    intro s h _
    exact h
  | cons a rest ih =>
    intro s h hadm
    show InvB (runB (stepB s a) rest)
    cases a with
    | put k v ver =>
      cases v with
      | none => simp [admissiblePuts] at hadm
      | some str =>
        cases ver with
        | none => simp [admissiblePuts] at hadm
        | some n =>
          simp only [admissiblePuts, Bool.and_eq_true, decide_eq_true_eq] at hadm
          exact ih _ (invB_dbPut s k str n h hadm.1) hadm.2
    | flush =>
      simp only [admissiblePuts] at hadm
      exact ih _ (invB_commit s h) hadm
    | flushFail => simp [admissiblePuts] at hadm

theorem commitBatch_currentBatch_none (s : BState) (ok : Bool) :
    (commitBatch s ok).currentBatch = none := by
  cases hc : s.currentBatch with
  | none => simp [commitBatch, hc]
  | some b => cases ok <;> simp [commitBatch, hc]

/-- C3: over any admissible trace of puts (each carrying a value and a version
strictly above the running `lastVersion`, as produced by the monotone
`getNextVersion` sequence) followed by a final flush: the class's
`lastVersion` is the maximum version ever passed to `dbPut`; the committed
watermark`[0x01,0x02]` holds exactly that `lastVersion`, which is the maximum
version of any row ever committed; and every flushed batch consists of its
entity-row operations followed by exactly one extra put of
`LAST_VERSION_IN_DB_KEY` with the `lastVersion` recorded at flush time. -/
theorem dbPut_watermark_lastVersion (acts : List BAct)
    (hadm : admissiblePuts initB acts = true)
    (hput : acts.any isPutActB = true) :
    (runB initB (acts ++ [BAct.flush])).watermark
      = some (runB initB (acts ++ [BAct.flush])).lastVersion ∧
    (runB initB (acts ++ [BAct.flush])).lastVersion
      = maxL (runB initB (acts ++ [BAct.flush])).written ∧
    maxL (runB initB (acts ++ [BAct.flush])).committed
      = (runB initB (acts ++ [BAct.flush])).lastVersion ∧
    (∀ p ∈ (runB initB (acts ++ [BAct.flush])).flushed, GoodBatch p) := by
  have hrun : runB initB (acts ++ [BAct.flush]) = commitBatch (runB initB acts) true := by
    simp [runB, List.foldl_append, stepB]
  have hInv0 : InvB (runB initB acts) := invB_run acts initB invB_init hadm
  have hInv : InvB (commitBatch (runB initB acts) true) := invB_commit _ hInv0
  have hcbn : (commitBatch (runB initB acts) true).currentBatch = none :=
    commitBatch_currentBatch_none _ _
  obtain ⟨h1, h2, h3, h4, h5, h6, h7⟩ := hInv
  have h5' := h5 hcbn
  have hwr : (commitBatch (runB initB acts) true).written ≠ [] := by
    rw [commitBatch_written]
    exact runB_written_ne acts initB (Or.inr hput)
  have hpos : 0 < (commitBatch (runB initB acts) true).lastVersion := by
    rw [h1]
    cases hw : (commitBatch (runB initB acts) true).written with
    | nil => exact absurd hw hwr
    | cons a l =>
      have ha : 0 < a := h6 a (by rw [hw]; simp)
      calc 0 < a := ha
        _ ≤ maxL (a :: l) := le_maxL_of_mem (by simp)
  have hcne : (commitBatch (runB initB acts) true).committed ≠ [] := by
    intro hc0
    rw [hc0, maxL_nil] at h5'
    omega
  rw [hrun]
  refine ⟨?_, h1, h5', h7⟩
  cases hwmc : (commitBatch (runB initB acts) true).watermark with
  | none => exact absurd (h2 hwmc) hcne
  | some w =>
    rw [(h3 w hwmc).symm.trans h5']

/-- Witness for C3: two puts with versions 3 then 7 followed by a flush. -/
theorem dbPut_watermark_lastVersion_witness :
    (runB initB ([BAct.put 1 (some "a") (some 3), BAct.put 2 (some "b") (some 7)]
        ++ [BAct.flush])).watermark
      = some (runB initB ([BAct.put 1 (some "a") (some 3),
          BAct.put 2 (some "b") (some 7)] ++ [BAct.flush])).lastVersion :=
  (dbPut_watermark_lastVersion
    [BAct.put 1 (some "a") (some 3), BAct.put 2 (some "b") (some 7)]
    (by decide) (by decide)).1

set_option maxRecDepth 10000 in
/-- C4 counterexample: after 101 puts the open batch already holds 101
operations — more than 100 — yet nothing has been flushed (the `writes++`
check compares the counter before increment, so the flush only happens on the
102nd call), and the batch flushed by the 102nd put carries 102 entity-row
operations, refuting "every flushed batch contains at most 100 operations". -/
theorem dbPut_batchCap_counterexample :
    (runB initB (putsN 101)).flushed = [] ∧
    ((runB initB (putsN 101)).currentBatch.map (fun b => b.entries.length)) = some 101 ∧
    ((runB initB (putsN 102)).flushed.map (fun q => userOpCount q.1)) = [102] ∧
    ¬ (102 ≤ 100) := by
  decide


theorem dcap_target (st : DState) (b : DBatch) (hcb : st.currentBatch = some b)
    (h : b.triggered = false → b.writes ≤ 101) :
    ∀ b', st.currentBatch = some b' → b'.triggered = false → b'.writes ≤ 101 := by
  intro b' hb' ht
  rw [hcb, Option.some.injEq] at hb'
  rw [← hb'] at ht ⊢
  exact h ht

theorem dcap_commitOps (s : DState) (b : DBatch) (hs : s.currentBatch = some b) :
    ∀ b', (commitOperationsD s b).currentBatch = some b' →
      b'.triggered = false → b'.writes ≤ 101 := by
  unfold commitOperationsD
  split
  · next htr =>
    exact dcap_target _ _ hs (fun htf => absurd (htr.symm.trans htf) (by simp))
  · split
    · intro b' hb' _
      simp [runBodyD] at hb'
    · exact dcap_target _ _ rfl (fun htf => absurd htf (by simp))

theorem dcap_dbPut (s : DState) (k : Nat) (v : Option String) (ver : Option Nat)
    (h : ∀ b, s.currentBatch = some b → b.triggered = false → b.writes ≤ 101) :
    ∀ b, (dbPutD s k v ver).currentBatch = some b →
      b.triggered = false → b.writes ≤ 101 := by
  cases hc : s.currentBatch with
  | none =>
    cases v with
    | none =>
      simp only [dbPutD, hc, Option.isNone_none, if_true]
      split
      · exact dcap_commitOps _ _ rfl
      · exact dcap_target _ _ rfl (fun _ => show (0 : Nat) + 1 ≤ 101 by omega)
    | some str =>
      simp only [dbPutD, hc, Option.isNone_none, if_true]
      split
      · exact dcap_commitOps _ _ rfl
      · split
        · exact dcap_target _ _ rfl (fun _ => show (0 : Nat) + 1 ≤ 101 by omega)
        · split
          · exact dcap_commitOps _ _ rfl
          · exact dcap_target _ _ rfl (fun _ => show (0 : Nat) + 1 ≤ 101 by omega)
  | some b0 =>
    cases v with
    | none =>
      simp only [dbPutD, hc, Option.isNone_some, Bool.false_eq_true, if_false]
      split
      · exact dcap_commitOps _ _ rfl
      · next hw =>
        exact dcap_target _ _ rfl (fun _ => show b0.writes + 1 ≤ 101 by omega)
    | some str =>
      simp only [dbPutD, hc, Option.isNone_some, Bool.false_eq_true, if_false]
      split
      · exact dcap_commitOps _ _ rfl
      · next hw =>
        split
        · exact dcap_target _ _ rfl (fun _ => show b0.writes + 1 ≤ 101 by omega)
        · split
          · exact dcap_commitOps _ _ rfl
          · exact dcap_target _ _ rfl (fun _ => show b0.writes + 1 ≤ 101 by omega)

theorem dcap_settle (s : DState)
    (h : ∀ b, s.currentBatch = some b → b.triggered = false → b.writes ≤ 101) :
    ∀ b, (settleD s).currentBatch = some b → b.triggered = false → b.writes ≤ 101 := by
  cases hf : s.inFlight with
  | nil => simpa [settleD, hf] using h
  | cons bid rest =>
    cases hc : s.currentBatch with
    | none =>
      intro b' hb' _
      simp [settleD, hf, hc] at hb'
    | some b =>
      by_cases hcond : (b.triggered = true ∧ b.lastCompletion = some bid)
      · intro b' hb' _
        simp [settleD, hf, hc, hcond, runBodyD] at hb'
      · intro b' hb' ht
        have hb2 : b = b' := by simpa [settleD, hf, hc, hcond] using hb'
        rw [← hb2] at ht ⊢
        exact h b hc ht

theorem dcap_timer (s : DState)
    (h : ∀ b, s.currentBatch = some b → b.triggered = false → b.writes ≤ 101) :
    ∀ b, (timerD s).currentBatch = some b → b.triggered = false → b.writes ≤ 101 := by
  cases hc : s.currentBatch with
  | none => simpa [timerD, hc] using h
  | some b =>
    simp only [timerD, hc]
    exact dcap_commitOps s b hc

theorem dcap_resume (s : DState)
    (h : ∀ b, s.currentBatch = some b → b.triggered = false → b.writes ≤ 101) :
    ∀ b, (resumeD s).currentBatch = some b → b.triggered = false → b.writes ≤ 101 := by
  cases hc : s.currentBatch with
  | none => simpa [resumeD, hc] using h
  | some b =>
    simp only [resumeD, hc]
    split
    · intro b' hb' _
      simp [runBodyD] at hb'
    · exact h

theorem dcap_run (acts : List DAct) :
    ∀ s : DState, (∀ b, s.currentBatch = some b → b.triggered = false → b.writes ≤ 101) →
      ∀ b, (runD s acts).currentBatch = some b → b.triggered = false → b.writes ≤ 101 := by
  induction acts with
  | nil => intro s h; exact h
  | cons a rest ih =>
    intro s h
    refine ih (stepD s a) ?_
    cases a with
    | put k v ver => exact dcap_dbPut s k v ver h
    | settle => exact dcap_settle s h
    | timer => exact dcap_timer s h
    | resume => exact dcap_resume s h

theorem commitOpsD_flushed (s : DState) (b : DBatch) :
    (commitOperationsD s b).flushed = s.flushed ∨
    ∃ e lv, (commitOperationsD s b).flushed = s.flushed ++ [(mkFlushOps e lv, lv)] := by
  unfold commitOperationsD runBodyD
  split
  · exact Or.inl rfl
  · split
    · exact Or.inr ⟨b.entries, s.lastVersion, rfl⟩
    · exact Or.inl rfl

theorem stepD_flushed (s : DState) (a : DAct) :
    (stepD s a).flushed = s.flushed ∨
    ∃ e lv, (stepD s a).flushed = s.flushed ++ [(mkFlushOps e lv, lv)] := by
  cases a with
  | put k v ver =>
    cases hc : s.currentBatch with
    | none =>
      cases v with
      | none =>
        simp only [stepD, dbPutD, hc, Option.isNone_none, if_true]
        split
        · exact commitOpsD_flushed _ _
        · exact Or.inl rfl
      | some str =>
        simp only [stepD, dbPutD, hc, Option.isNone_none, if_true]
        split
        · exact commitOpsD_flushed _ _
        · split
          · exact Or.inl rfl
          · split
            · exact commitOpsD_flushed _ _
            · exact Or.inl rfl
    | some b0 =>
      cases v with
      | none =>
        simp only [stepD, dbPutD, hc, Option.isNone_some, Bool.false_eq_true, if_false]
        split
        · exact commitOpsD_flushed _ _
        · exact Or.inl rfl
      | some str =>
        simp only [stepD, dbPutD, hc, Option.isNone_some, Bool.false_eq_true, if_false]
        split
        · exact commitOpsD_flushed _ _
        · split
          · exact Or.inl rfl
          · split
            · exact commitOpsD_flushed _ _
            · exact Or.inl rfl
  | settle =>
    cases hf : s.inFlight with
    | nil => exact Or.inl (by simp [stepD, settleD, hf])
    | cons bid rest =>
      cases hc : s.currentBatch with
      | none => exact Or.inl (by simp [stepD, settleD, hf, hc])
      | some b =>
        by_cases hcond : (b.triggered = true ∧ b.lastCompletion = some bid)
        · exact Or.inr ⟨b.entries, s.lastVersion,
            by simp [stepD, settleD, hf, hc, hcond, runBodyD]⟩
        · exact Or.inl (by simp [stepD, settleD, hf, hc, hcond])
  | timer =>
    cases hc : s.currentBatch with
    | none => exact Or.inl (by simp [stepD, timerD, hc])
    | some b =>
      simp only [stepD, timerD, hc]
      exact commitOpsD_flushed s b
  | resume =>
    cases hc : s.currentBatch with
    | none => exact Or.inl (by simp [stepD, resumeD, hc])
    | some b =>
      simp only [stepD, resumeD, hc]
      split
      · exact Or.inr ⟨b.entries, s.lastVersion, rfl⟩
      · exact Or.inl rfl

theorem dgood_run (acts : List DAct) :
    ∀ s : DState, (∀ p ∈ s.flushed, GoodBatch p) →
      ∀ p ∈ (runD s acts).flushed, GoodBatch p := by
  induction acts with
  | nil => intro s h; exact h
  | cons a rest ih =>
    intro s h
    refine ih (stepD s a) ?_
    rcases stepD_flushed s a with heq | ⟨e, lv, heq⟩
    · rw [heq]
      exact h
    · rw [heq]
      intro p hp
      rcases List.mem_append.mp hp with hp | hp
      · exact h p hp
      · simp only [List.mem_singleton] at hp
        rw [hp]
        exact goodBatch_mkFlushOps _ _

set_option maxRecDepth 10000 in
/-- C4 (amended): the commit of the open batch is initiated as soon as a put
brings the batch's pre-increment `writes` counter above 100 — that is, on the
102nd operation of the batch, never earlier — or its cumulative value byte
count exceeds 100 000; otherwise the 20 ms timer initiates it. The commit body
runs immediately only when no previous batch's completion is pending, and is
otherwise deferred behind it while the open batch keeps growing, so flushed
batches are not bounded by 102 operations in general. 250 puts enqueued
within the timer window are committed as 2 or 3 batches, each atomically
including the updated `lastVersion`: 102, 102 and 46 when each commit
completes before the next put, or 102 and 148 when the burst outpaces the
previous batch's completion. -/
theorem dbPut_batchCap_amended (acts : List DAct) (b : DBatch)
    (hb : (runD initD acts).currentBatch = some b) (ht : b.triggered = false) :
    b.writes ≤ 101 ∧
    (∀ p ∈ (runD initD acts).flushed, GoodBatch p) ∧
    ((runD initD seq250).flushed.map (fun q => userOpCount q.1) = [102, 102, 46]) ∧
    ((runD initD burst250).flushed.map (fun q => userOpCount q.1) = [102, 148]) := by
  refine ⟨?_, ?_, ?_, ?_⟩
  · exact dcap_run acts initD (fun b' hb' => by simp [initD] at hb') b hb ht
  · exact dgood_run acts initD (fun p hp => by simp [initD] at hp)
  · decide
  · decide

set_option maxRecDepth 10000 in
/-- Witness for C4's amended theorem: the open, not yet triggered batch after
two puts on a fresh class. -/
theorem dbPut_batchCap_amended_witness :
    dBatchW.writes ≤ 101 :=
  (dbPut_batchCap_amended (putsDRange 0 2) dBatchW (by decide) (by decide)).1

/-- C7 (amended): when the KV engine's atomic batch write fails, the batch's
completion handle still resolves — it is never rejected, so callers are not
wedged — and the batcher state is cleared: the batch is removed from
`pendingWrites`, `writeCompletion` is reset when it is still this batch's, and
one error is logged; the failed rows and the watermark update are lost
(durability loss), and no class-level `onDbFailure` signal is raised by this
path — the source wires `onDbFailure` only to registration. -/
theorem writeFailure_resolves (s : BState) (b : WBatch)
    (hb : s.currentBatch = some b) (hn : s.pendingWrites.Nodup) :
    b.bid ∈ (stepB s BAct.flushFail).resolved ∧
    (stepB s BAct.flushFail).rejected = s.rejected ∧
    b.bid ∉ (stepB s BAct.flushFail).pendingWrites ∧
    (s.writeCompletion = some b.bid → (stepB s BAct.flushFail).writeCompletion = none) ∧
    (stepB s BAct.flushFail).failures = s.failures + 1 ∧
    (stepB s BAct.flushFail).dbFailureSignaled = s.dbFailureSignaled ∧
    (stepB s BAct.flushFail).watermark = s.watermark ∧
    (stepB s BAct.flushFail).committed = s.committed ∧
    (stepB s BAct.flushFail).currentBatch = none := by
  simp only [stepB, commitBatch, hb, Bool.false_eq_true, if_false]
  refine ⟨by simp, trivial, hn.not_mem_erase, ?_, trivial, trivial, trivial, trivial,
    trivial⟩
  intro hwc
  simp [hwc]

/-- C7 counterexample: after one put followed by a failing batch write, the
completion promise has been resolved and the state cleared, but the
class-level `onDbFailure` signal — which the claim says surfaces the
durability loss — was never invoked. -/
theorem writeFailure_counterexample :
    (runB initB [BAct.put 1 (some "a") (some 3), BAct.flushFail]).failures = 1 ∧
    (runB initB [BAct.put 1 (some "a") (some 3), BAct.flushFail]).resolved = [0] ∧
    (runB initB [BAct.put 1 (some "a") (some 3), BAct.flushFail]).rejected = [] ∧
    (runB initB [BAct.put 1 (some "a") (some 3), BAct.flushFail]).dbFailureSignaled
      = false := by
  decide

/-- Witness for C7's amended theorem at a concrete one-put state. -/
theorem writeFailure_resolves_witness :
    (0 : Nat) ∈ (stepB (runB initB [BAct.put 1 (some "a") (some 3)])
      BAct.flushFail).resolved :=
  (writeFailure_resolves (runB initB [BAct.put 1 (some "a") (some 3)])
    ⟨0, [(1, ⟨true, "a", 3⟩)], 1, 1⟩ (by decide) (by decide)).1

/-- C8: `clearCache` — the same method the LRU eviction invokes — mutates only
in-memory fields: it drops `asJSON` and the cached deserialized value, and
resets `readyState` to unloaded exactly when it was up-to-date or invalidated;
it performs no operation on the KV store (the row passes through untouched);
and for a persisted entity loaded from a `"v,json"` row, clearing the cache
and reloading via `valueOf` yields the same value and version as before. -/
theorem clearCache_frame_roundtrip (e : EState) (db : Option String)
    (i fresh fresh2 v : Nat) (row j : String)
    (hrow : rowParse row = some (v, some j)) :
    (clearCacheKV e db).2 = db ∧
    (clearCache e).asJSON = none ∧
    (clearCache e).cachedValue = none ∧
    (clearCache e).id = e.id ∧
    (clearCache e).version = e.version ∧
    (clearCache e).readyState
      = (if e.readyState = some ReadyState.upToDate
            ∨ e.readyState = some ReadyState.invalidated then none
         else e.readyState) ∧
    ((valueOfModel fresh (initE i) (some row)).1 = some j ∧
      (valueOfModel fresh2
          (clearCache (valueOfModel fresh (initE i) (some row)).2) (some row)).1
        = (valueOfModel fresh (initE i) (some row)).1 ∧
      (valueOfModel fresh2
          (clearCache (valueOfModel fresh (initE i) (some row)).2) (some row)).2.version
        = (valueOfModel fresh (initE i) (some row)).2.version) := by
  refine ⟨rfl, rfl, rfl, rfl, rfl, rfl, ?_, ?_, ?_⟩ <;>
    simp [valueOfModel, loadLatestLocalData, getValueProp, clearCache, initE, hrow]

/-- Witness for C8 with the concrete row bytes `"12,abc"`. -/
theorem clearCache_frame_roundtrip_witness :
    (valueOfModel 5 (initE 0) (some "12,abc")).1 = some "abc" ∧
    (valueOfModel 6
        (clearCache (valueOfModel 5 (initE 0) (some "12,abc")).2) (some "12,abc")).1
      = (valueOfModel 5 (initE 0) (some "12,abc")).1 :=
  ⟨(clearCache_frame_roundtrip (initE 0) none 0 5 6 12 "12,abc" "abc"
      (by decide)).2.2.2.2.2.2.1,
    (clearCache_frame_roundtrip (initE 0) none 0 5 6 12 "12,abc" "abc"
      (by decide)).2.2.2.2.2.2.2.1⟩

/-- C9 (amended): calling `stopNotifies` on a permission-proxied object does
execute the proxy's `stopNotifies` override, but because the `get` trap binds
overrides to the wrapped target (`.bind(target)`), the override's
`this.stopNotifies(target)` invokes the wrapped target's own `stopNotifies`:
the call delegates after one proxy hop for any positive call budget, skipping
the permission check, rather than recursing on the proxy. -/
theorem proxy_stopNotifies_delegates (t : TargetObj) (arg fuel : Nat) :
    invokeStopNotifies (Receiver.proxyOf t) arg (fuel + 1)
      = CallRes.delegated (t.stopNotifiesImpl arg) := by
  simp [invokeStopNotifies, overrideBoundReceiver]

/-- C9 counterexample: on a concrete proxied object, the override's bound
receiver is the plain wrapped target, not the proxy — so the override does not
recurse on itself — and a call with a budget of a single hop already reaches
the wrapped target's `stopNotifies` (marker 105 for listener 5), which
self-recursion could never do. -/
theorem proxy_stopNotifies_counterexample :
    isProxyReceiver (overrideBoundReceiver testTarget) = false ∧
    invokeStopNotifies (Receiver.proxyOf testTarget) 5 1 = CallRes.delegated 105 ∧
    invokeStopNotifies (Receiver.proxyOf testTarget) 5 1 ≠ CallRes.outOfFuel := by
  refine ⟨rfl, rfl, ?_⟩
  intro h
  exact absurd h (by decide)
